import Mathlib

/-!
Verification of the numerical contracts in the course notebooks:
the discrete Fourier transform conventions used via `np.fft.fft` /
`np.fft.ifft` / `np.fft.fftfreq`, and the exciton stick-spectrum
construction of `Exercise9.ipynb` (tridiagonal Hamiltonian, eigenpair
projection, nearest-bin accumulation).  Floating-point arrays are
modelled by exact scalars (`ℂ`, `ℝ`, or `ℚ` where the code's
comparisons must stay decidable).
-/

/-- Forward DFT as used by `np.fft.fft`:
`F[k] = Σ_{n=0}^{N-1} f[n] · exp(-2πi·k·n/N)`. -/
noncomputable def dft (N : ℕ) (f : ℕ → ℂ) (k : ℕ) : ℂ :=
  ∑ n in Finset.range N, f n * Complex.exp (-(2 * (Real.pi : ℂ) * Complex.I) * k * n / N)

/-- Inverse DFT as used by `np.fft.ifft`:
`f[n] = (1/N) · Σ_{k=0}^{N-1} F[k] · exp(+2πi·k·n/N)`. -/
noncomputable def idft (N : ℕ) (F : ℕ → ℂ) (n : ℕ) : ℂ :=
  (1 / (N : ℂ)) * ∑ k in Finset.range N, F k * Complex.exp ((2 * (Real.pi : ℂ) * Complex.I) * k * n / N)

/-- Signal built by `f = np.zeros((N)); f[j] = 1`: a discrete delta at index `j`. -/
noncomputable def deltaSig (j : ℕ) (n : ℕ) : ℂ := if n = j then 1 else 0

/-- C3: the forward DFT of the length-50 delta at index 0 is the constant
sequence 1: every entry has magnitude 1 and zero imaginary part. -/
theorem dft_delta0_const (k : ℕ) :
    dft 50 (deltaSig 0) k = 1 ∧
      Complex.abs (dft 50 (deltaSig 0) k) = 1 ∧ (dft 50 (deltaSig 0) k).im = 0 := by
  have h : dft 50 (deltaSig 0) k = 1 := by
    rw [dft]
    rw [Finset.sum_eq_single 0]
    · simp [deltaSig]
    · intro n _ hn
      simp [deltaSig, hn]
    · intro h0
      simp at h0
  refine ⟨h, ?_, ?_⟩ <;> rw [h] <;> simp

/-- Helper: the `N`-th root of unity `exp(2πi·d/N)` is not 1 when `0 < |d| < N`. -/
lemma exp_two_pi_div_ne_one (N : ℕ) (d : ℤ) (hd : d ≠ 0) (hdN : d.natAbs < N) :
    Complex.exp (2 * (Real.pi : ℂ) * Complex.I * d / N) ≠ 1 := by
  have hN : 0 < N := lt_of_le_of_lt (Nat.zero_le _) hdN
  have hN0 : (N : ℂ) ≠ 0 := Nat.cast_ne_zero.mpr hN.ne'
  have hc : (2 * (Real.pi : ℂ) * Complex.I) ≠ 0 :=
    mul_ne_zero (mul_ne_zero two_ne_zero (by exact_mod_cast Real.pi_ne_zero)) Complex.I_ne_zero
  intro h
  rw [Complex.exp_eq_one_iff] at h
  obtain ⟨m, hm⟩ := h
  field_simp at hm
  have h2 : (2 * (Real.pi : ℂ) * Complex.I) * d = (2 * (Real.pi : ℂ) * Complex.I) * (m * N) := by
    linear_combination hm
  have h3 : (d : ℂ) = (m : ℂ) * (N : ℂ) := mul_left_cancel₀ hc h2
  have h4 : d = m * (N : ℤ) := by exact_mod_cast h3
  have h5 : d.natAbs = m.natAbs * N := by
    rw [h4, Int.natAbs_mul, Int.natAbs_ofNat]
  have hm0 : m.natAbs ≠ 0 := by
    intro h0
    apply hd
    rw [h4, Int.natAbs_eq_zero.mp h0]
    ring1
  have : N ≤ d.natAbs := by
    rw [h5]
    exact Nat.le_mul_of_pos_left N (Nat.pos_of_ne_zero hm0)
  omega

/-- Helper: geometric-sum orthogonality of the DFT kernel:
`Σ_{k<N} exp(2πi·d·k/N)` is `N` when `d = 0` and `0` when `0 < |d| < N`. -/
lemma sum_exp_int (N : ℕ) (hN : 0 < N) (d : ℤ) (hdN : d.natAbs < N) :
    ∑ k in Finset.range N, Complex.exp (2 * (Real.pi : ℂ) * Complex.I * d * k / N)
      = if d = 0 then (N : ℂ) else 0 := by
  have hN0 : (N : ℂ) ≠ 0 := Nat.cast_ne_zero.mpr hN.ne'
  by_cases hd : d = 0
  · subst hd
    simp
  · rw [if_neg hd]
    have hterm : ∀ k ∈ Finset.range N,
        Complex.exp (2 * (Real.pi : ℂ) * Complex.I * d * k / N)
          = Complex.exp (2 * (Real.pi : ℂ) * Complex.I * d / N) ^ k := by
      intro k _
      rw [← Complex.exp_nat_mul]
      congr 1
      ring1
    rw [Finset.sum_congr rfl hterm, geom_sum_eq (exp_two_pi_div_ne_one N d hd hdN)]
    have hxn : Complex.exp (2 * (Real.pi : ℂ) * Complex.I * d / N) ^ N = 1 := by
      rw [← Complex.exp_nat_mul]
      have hred : (N : ℂ) * (2 * (Real.pi : ℂ) * Complex.I * d / N)
          = (d : ℂ) * (2 * (Real.pi : ℂ) * Complex.I) := by
        field_simp
        ring1
      rw [hred, Complex.exp_int_mul_two_pi_mul_I]
    rw [hxn]
    simp

/-- C1: round-trip law of the numpy DFT pair: for every sequence `f` of length
`N ≥ 1`, `idft N (dft N f)` agrees with `f` on every index `n < N`. -/
theorem idft_dft (N : ℕ) (f : ℕ → ℂ) (n : ℕ) (hn : n < N) :
    idft N (dft N f) n = f n := by
  have hN : 0 < N := lt_of_le_of_lt (Nat.zero_le _) hn
  have hN0 : (N : ℂ) ≠ 0 := Nat.cast_ne_zero.mpr hN.ne'
  rw [idft]
  have step1 : ∀ k ∈ Finset.range N, dft N f k * Complex.exp ((2 * (Real.pi : ℂ) * Complex.I) * k * n / N)
      = ∑ m in Finset.range N,
          f m * Complex.exp (2 * (Real.pi : ℂ) * Complex.I * ((((n : ℤ) - (m : ℤ)) : ℤ) : ℂ) * k / N) := by
    intro k _
    rw [dft, Finset.sum_mul]
    refine Finset.sum_congr rfl fun m _ => ?_
    rw [mul_assoc, ← Complex.exp_add]
    congr 1
    push_cast
    ring_nf
  rw [Finset.sum_congr rfl step1, Finset.sum_comm]
  have step2 : ∀ m ∈ Finset.range N,
      (∑ k in Finset.range N,
          f m * Complex.exp (2 * (Real.pi : ℂ) * Complex.I * ((((n : ℤ) - (m : ℤ)) : ℤ) : ℂ) * k / N))
        = if m = n then f m * N else 0 := by
    intro m hm
    have hmN : m < N := Finset.mem_range.mp hm
    rw [← Finset.mul_sum, sum_exp_int N hN ((n : ℤ) - (m : ℤ)) (by omega)]
    by_cases h : m = n
    · subst h
      simp
    · rw [if_neg (by omega : ¬ ((n : ℤ) - (m : ℤ) = 0)), if_neg h, mul_zero]
  rw [Finset.sum_congr rfl step2, Finset.sum_ite_eq' (Finset.range N) n (fun m => f m * N),
    if_pos (Finset.mem_range.mpr hn)]
  field_simp

/-- C1 witness: the round-trip law instantiated at `N = 2`, `f m = m`, `n = 1`. -/
theorem idft_dft_witness :
    (1 < 2) ∧ idft 2 (dft 2 (fun m => (m : ℂ))) 1 = 1 := by
  refine ⟨one_lt_two, ?_⟩
  have h := idft_dft 2 (fun m => (m : ℂ)) 1 (by norm_num)
  simpa using h

/-- C5: conjugate symmetry of the DFT of a real signal:
`F[N-k] = conj (F[k])` for every `k` in `1..N-1`. -/
theorem dft_real_conj_symm (N : ℕ) (f : ℕ → ℝ) (k : ℕ) (hk1 : 1 ≤ k) (hk2 : k ≤ N - 1) :
    dft N (fun n => (f n : ℂ)) (N - k) = starRingEnd ℂ (dft N (fun n => (f n : ℂ)) k) := by
  have hN : 2 ≤ N := by omega
  have hN0 : (N : ℂ) ≠ 0 := Nat.cast_ne_zero.mpr (by omega)
  rw [dft, dft, map_sum]
  refine Finset.sum_congr rfl fun n hn => ?_
  rw [map_mul, Complex.conj_ofReal]
  congr 1
  have hconj : (starRingEnd ℂ) (Complex.exp (-(2 * (Real.pi : ℂ) * Complex.I) * k * n / N))
      = Complex.exp ((2 * (Real.pi : ℂ) * Complex.I) * k * n / N) := by
    rw [← Complex.exp_conj]
    congr 1
    simp only [map_div₀, map_mul, map_neg, map_ofNat, Complex.conj_I, Complex.conj_ofReal,
      Complex.conj_natCast]
    ring1
  rw [hconj]
  have hsub : ((N - k : ℕ) : ℂ) = (N : ℂ) - (k : ℂ) := by
    have : k ≤ N := by omega
    push_cast [this]
    ring1
  rw [hsub]
  have hdecomp : -(2 * (Real.pi : ℂ) * Complex.I) * ((N : ℂ) - (k : ℂ)) * n / N
      = ((-(n : ℤ) : ℤ) : ℂ) * (2 * (Real.pi : ℂ) * Complex.I)
          + (2 * (Real.pi : ℂ) * Complex.I) * k * n / N := by
    push_cast
    field_simp
    ring1
  rw [hdecomp, Complex.exp_add, Complex.exp_int_mul_two_pi_mul_I, one_mul]

/-- C5 witness: conjugate symmetry instantiated at `N = 3`, `k = 1`, for the
real signal `f n = n`. -/
theorem dft_real_conj_symm_witness :
    (1 ≤ 1 ∧ 1 ≤ 3 - 1) ∧
      dft 3 (fun n => ((n : ℝ) : ℂ)) (3 - 1)
        = starRingEnd ℂ (dft 3 (fun n => ((n : ℝ) : ℂ)) 1) := by
  exact ⟨⟨le_refl 1, by norm_num⟩, dft_real_conj_symm 3 (fun n => (n : ℝ)) 1 (le_refl 1) (by norm_num)⟩

/-- C9: the DFT of the length-`N` delta at index 1 (`N ≥ 2`) is the unit-frequency
tone: its real part is `cos(2πk/N)` and its imaginary part is the unit-frequency
sine component `-sin(2πk/N)`, completing exactly one cycle over `k = 0..N-1`. -/
theorem dft_delta1_tone (N k : ℕ) (hN : 2 ≤ N) :
    (dft N (deltaSig 1) k).re = Real.cos (2 * Real.pi * k / N) ∧
      (dft N (deltaSig 1) k).im = - Real.sin (2 * Real.pi * k / N) := by
  have h : dft N (deltaSig 1) k
      = Complex.exp (((-(2 * Real.pi * k / N) : ℝ) : ℂ) * Complex.I) := by
    rw [dft, Finset.sum_eq_single 1]
    · rw [deltaSig]
      simp only [if_pos rfl, one_mul]
      push_cast
      ring_nf
    · intro n _ hn
      simp [deltaSig, hn]
    · intro h1
      exfalso
      rw [Finset.mem_range] at h1
      omega
  rw [h, Complex.exp_ofReal_mul_I_re, Complex.exp_ofReal_mul_I_im, Real.cos_neg, Real.sin_neg]
  exact ⟨rfl, rfl⟩

/-- C9 witness: the single-tone law instantiated at `N = 4`, `k = 1`. -/
theorem dft_delta1_tone_witness :
    (2 ≤ 4) ∧
      (dft 4 (deltaSig 1) 1).re = Real.cos (2 * Real.pi * 1 / 4) ∧
        (dft 4 (deltaSig 1) 1).im = - Real.sin (2 * Real.pi * 1 / 4) := by
  have h := dft_delta1_tone 4 1 (by norm_num)
  exact ⟨by norm_num, by exact_mod_cast h⟩

/-- Integer frequency index of `np.fft.fftfreq`: following the numpy source,
entries `0, 1, ..., (N-1)//2` are their own index and the remaining entries
`k ≥ (N-1)//2 + 1` are `k - N`. -/
def fftfreqIdx (N k : ℕ) : ℤ := if k < (N - 1) / 2 + 1 then (k : ℤ) else (k : ℤ) - N

/-- Value of `np.fft.fftfreq(N)[k]` with the default sample spacing `d = 1`:
the integer index scaled by `1/N` (exact rationals model the float array). -/
def fftfreq (N k : ℕ) : ℚ := (fftfreqIdx N k : ℚ) / N

/-- Frequency axis `faxis = np.fft.fftfreq(N)/dt` of the notebook. -/
noncomputable def faxisVal (N : ℕ) (dt : ℝ) (k : ℕ) : ℝ := ((fftfreq N k : ℚ) : ℝ) / dt

/-- Angular frequency from a linear frequency, as in `wo = 2.0*math.pi*vo*c`. -/
noncomputable def angularOf (v : ℝ) : ℝ := 2 * Real.pi * v

/-- C4 counterexample: at `N = 2`, `δt = 1`, the Nyquist index `k = 1` satisfies
`k ≤ N/2`, yet the frequency axis assigns it `-(1/2)`, not `k/(N·δt) = 1/2`. -/
theorem fftfreq_nyquist_counterexample :
    ((1 : ℚ) ≤ 2 / 2) ∧ faxisVal 2 1 1 = -(1 / 2) ∧ faxisVal 2 1 1 ≠ 1 / (2 * 1) := by
  have h : faxisVal 2 1 1 = -(1 / 2) := by
    norm_num [faxisVal, fftfreq, fftfreqIdx]
  refine ⟨by norm_num, h, ?_⟩
  rw [h]
  norm_num

/-- C4 (amended): the frequency axis maps index `k < N` to `k/(N·δt)` when
`2k < N` and to `(k-N)/(N·δt)` when `2k ≥ N` (so the Nyquist index `k = N/2` of
an even `N` is mapped to the negative frequency), and the angular frequency is
`2π` times the linear frequency. -/
theorem fftfreq_mapping (N k : ℕ) (dt : ℝ) (hN : 1 ≤ N) (hk : k < N) (hdt : dt ≠ 0) :
    (2 * k < N → faxisVal N dt k = (k : ℝ) / (N * dt)) ∧
      (N ≤ 2 * k → faxisVal N dt k = ((k : ℝ) - N) / (N * dt)) ∧
      angularOf (faxisVal N dt k) = 2 * Real.pi * faxisVal N dt k := by
  have hN0 : (N : ℝ) ≠ 0 := Nat.cast_ne_zero.mpr (by omega)
  refine ⟨?_, ?_, rfl⟩
  · intro h2k
    have hidx : fftfreqIdx N k = (k : ℤ) := by
      rw [fftfreqIdx, if_pos (by omega)]
    rw [faxisVal, fftfreq, hidx]
    push_cast
    field_simp
  · intro h2k
    have hidx : fftfreqIdx N k = (k : ℤ) - N := by
      rw [fftfreqIdx, if_neg (by omega)]
    rw [faxisVal, fftfreq, hidx]
    push_cast
    field_simp

/-- C4 witness: the amended mapping instantiated at `N = 4`, `k = 3`, `δt = 1`. -/
theorem fftfreq_mapping_witness :
    (4 ≤ 2 * 3) ∧ faxisVal 4 1 3 = ((3 : ℝ) - 4) / (4 * 1) := by
  have h := (fftfreq_mapping 4 3 1 (by norm_num) (by norm_num) (by norm_num)).2.1 (by norm_num)
  exact ⟨by norm_num, by exact_mod_cast h⟩

/-- Superdiagonal seed matrix of the Hamiltonian loop in `Exercise9.ipynb`:
`H = np.zeros((Nosc,Nosc)); for n in range(0, Nosc-1): H[n,n+1] = V`. -/
noncomputable def offDiagH (N : ℕ) (V : ℝ) : Matrix (Fin N) (Fin N) ℝ :=
  Matrix.of fun i j => if (j : ℕ) = (i : ℕ) + 1 then V else 0

/-- Exciton Hamiltonian of `Exercise9.ipynb`:
`H = H + np.transpose(H); H = H + np.eye(Nosc)*vo`. -/
noncomputable def buildH (N : ℕ) (vo V : ℝ) : Matrix (Fin N) (Fin N) ℝ :=
  offDiagH N V + (offDiagH N V).transpose + vo • (1 : Matrix (Fin N) (Fin N) ℝ)

/-- C6: for every `N`, `v₀`, `V`, the constructed Hamiltonian has `v₀` on the
diagonal, `V` on the two secondary diagonals, `0` at every other entry, and it
equals its own transpose. -/
theorem buildH_entries_and_symm (N : ℕ) (vo V : ℝ) :
    (∀ i j : Fin N, buildH N vo V i j =
        if (i : ℕ) = (j : ℕ) then vo
        else if (j : ℕ) = (i : ℕ) + 1 ∨ (i : ℕ) = (j : ℕ) + 1 then V else 0) ∧
      (buildH N vo V).transpose = buildH N vo V := by
  constructor
  · intro i j
    simp only [buildH, offDiagH, Matrix.add_apply, Matrix.transpose_apply, Matrix.smul_apply,
      Matrix.one_apply, Matrix.of_apply, smul_eq_mul, Fin.ext_iff]
    split_ifs <;> first | ring1 | (exfalso; omega)
  · simp only [buildH, Matrix.transpose_add, Matrix.transpose_smul, Matrix.transpose_one,
      Matrix.transpose_transpose]
    abel

/-- C8: for `N = 2`, `v₀ = 17000`, `V = -100`, the Hamiltonian has
`(1,1)/√2` and `(1,-1)/√2` as eigenvectors with eigenvalues `16900` and
`17100`, these are the only eigenvalues, and every eigenvector of each
eigenvalue is proportional to the stated one. -/
theorem eig_two_oscillator :
    ((buildH 2 17000 (-100)).mulVec ![1 / Real.sqrt 2, 1 / Real.sqrt 2]
        = (16900 : ℝ) • ![1 / Real.sqrt 2, 1 / Real.sqrt 2]
      ∧ ![1 / Real.sqrt 2, (1 : ℝ) / Real.sqrt 2] ≠ 0) ∧
    ((buildH 2 17000 (-100)).mulVec ![1 / Real.sqrt 2, -(1 / Real.sqrt 2)]
        = (17100 : ℝ) • ![1 / Real.sqrt 2, -(1 / Real.sqrt 2)]
      ∧ ![1 / Real.sqrt 2, -((1 : ℝ) / Real.sqrt 2)] ≠ 0) ∧
    (∀ (a : ℝ) (x : Fin 2 → ℝ), x ≠ 0 → (buildH 2 17000 (-100)).mulVec x = a • x →
      a = 16900 ∨ a = 17100) ∧
    (∀ x : Fin 2 → ℝ, (buildH 2 17000 (-100)).mulVec x = (16900 : ℝ) • x →
      ∃ c : ℝ, x = c • ![1 / Real.sqrt 2, 1 / Real.sqrt 2]) ∧
    (∀ x : Fin 2 → ℝ, (buildH 2 17000 (-100)).mulVec x = (17100 : ℝ) • x →
      ∃ c : ℝ, x = c • ![1 / Real.sqrt 2, -(1 / Real.sqrt 2)]) := by
  have hs2 : Real.sqrt 2 ≠ 0 := by
    have := Real.sqrt_pos.mpr (by norm_num : (0:ℝ) < 2)
    exact this.ne'
  have hent : ∀ i j : Fin 2, buildH 2 17000 (-100) i j
      = ![![(17000 : ℝ), -100], ![-100, 17000]] i j := by
    intro i j
    rw [(buildH_entries_and_symm 2 17000 (-100)).1 i j]
    fin_cases i <;> fin_cases j <;> norm_num
  have hmv : ∀ x : Fin 2 → ℝ, (buildH 2 17000 (-100)).mulVec x
      = ![17000 * x 0 + (-100) * x 1, (-100) * x 0 + 17000 * x 1] := by
    intro x
    funext i
    rw [Matrix.mulVec, Matrix.dotProduct]
    rw [Fin.sum_univ_two, hent i 0, hent i 1]
    fin_cases i <;> simp
  refine ⟨⟨?_, ?_⟩, ⟨?_, ?_⟩, ?_, ?_, ?_⟩
  · rw [hmv]
    funext i
    fin_cases i <;> simp [Matrix.cons_val_zero, Matrix.cons_val_one, Matrix.head_cons] <;> ring1
  · intro h
    have h0 := congrFun h 0
    simp only [Matrix.cons_val_zero, Pi.zero_apply] at h0
    exact (one_div_ne_zero hs2) h0
  · rw [hmv]
    funext i
    fin_cases i <;> simp [Matrix.cons_val_zero, Matrix.cons_val_one, Matrix.head_cons] <;> ring1
  · intro h
    have h0 := congrFun h 0
    simp only [Matrix.cons_val_zero, Pi.zero_apply] at h0
    exact (one_div_ne_zero hs2) h0
  · intro a x hx hmul
    rw [hmv] at hmul
    have h0 := congrFun hmul 0
    have h1 := congrFun hmul 1
    simp only [Matrix.cons_val_zero, Matrix.cons_val_one, Matrix.head_cons, Pi.smul_apply,
      smul_eq_mul] at h0 h1
    by_cases hps : x 0 + x 1 = 0
    · right
      have hd : x 0 - x 1 ≠ 0 := by
        intro hd0
        apply hx
        funext i
        fin_cases i <;> (simp; linarith)
      have : 17100 * (x 0 - x 1) = a * (x 0 - x 1) := by linarith
      have := mul_right_cancel₀ hd this
      linarith
    · left
      have : 16900 * (x 0 + x 1) = a * (x 0 + x 1) := by linarith
      have := mul_right_cancel₀ hps this
      linarith
  · intro x hmul
    rw [hmv] at hmul
    have h0 := congrFun hmul 0
    simp only [Matrix.cons_val_zero, Pi.smul_apply, smul_eq_mul] at h0
    have hx01 : x 1 = x 0 := by linarith
    refine ⟨x 0 * Real.sqrt 2, ?_⟩
    funext i
    fin_cases i <;> simp [hx01]
  · intro x hmul
    rw [hmv] at hmul
    have h0 := congrFun hmul 0
    simp only [Matrix.cons_val_zero, Pi.smul_apply, smul_eq_mul] at h0
    have hx01 : x 1 = -(x 0) := by linarith
    refine ⟨x 0 * Real.sqrt 2, ?_⟩
    funext i
    fin_cases i <;> simp [hx01]

/-- C8 witness: the exactness clause applied at the concrete eigenpair
`a = 16900`, `x = (1,1)`. -/
theorem eig_two_oscillator_witness : (16900 : ℝ) = 16900 ∨ (16900 : ℝ) = 17100 := by
  refine eig_two_oscillator.2.2.1 16900 ![1, 1] ?_ ?_
  · intro h
    have h0 := congrFun h 0
    simp at h0
  · funext i
    have hent := (buildH_entries_and_symm 2 17000 (-100)).1
    rw [Matrix.mulVec, Matrix.dotProduct, Fin.sum_univ_two, hent i 0, hent i 1]
    fin_cases i <;> norm_num

/-- Model of `np.arange(v1, v2, dv)`: numpy produces `ceil((v2-v1)/dv)` samples
`v1 + i*dv` (exact rationals model the float values). -/
def arange (v1 v2 dv : ℚ) : List ℚ :=
  (List.range (Int.toNat ⌈(v2 - v1) / dv⌉)).map fun i : ℕ => v1 + (i : ℚ) * dv

/-- Scan kernel of `np.where(np.abs(vaxis-e)==np.min(np.abs(vaxis-e)))[0][0]`:
walk the remaining axis keeping the first index whose distance to `v` is
minimal (a later element replaces the best only on a strictly smaller
distance, so the first minimiser wins, as in the numpy expression). -/
def argminFrom (v best : ℚ) (bestIdx i : ℕ) : List ℚ → ℕ
  | [] => bestIdx
  | x :: xs =>
    if |x - v| < best then argminFrom v |x - v| i (i + 1) xs
    else argminFrom v best bestIdx (i + 1) xs

/-- Nearest-bin lookup of the stick-spectrum loop.  On an empty axis
`np.min` raises, modelled by `none`; otherwise it returns the first index of
the axis entry closest to `v`. -/
def nearestNdx : List ℚ → ℚ → Option ℕ
  | [], _ => none
  | x :: xs, v => some (argminFrom v (|x - v|) 0 1 xs)

/-- Initial spectrum `spec = np.zeros(np.shape(vaxis))`. -/
def specInit (vaxis : List ℚ) : List ℚ := vaxis.map fun _ => 0

/-- One body of the accumulation loop:
`ndx = np.where(...)[0][0]; spec[ndx] += w`. -/
def stickStep (vaxis s : List ℚ) (v w : ℚ) : Option (List ℚ) :=
  (nearestNdx vaxis v).map fun i => s.set i (s.getD i 0 + w)

/-- The loop `for n in range(0, Nosc)` over the (eigenvalue, weight) pairs. -/
def addSticks (vaxis : List ℚ) : List (ℚ × ℚ) → List ℚ → Option (List ℚ)
  | [], s => some s
  | p :: rest, s => (stickStep vaxis s p.1 p.2).bind (addSticks vaxis rest)

/-- (Eigenvalue, weight) pairs of the loop: `eMu = matmul(transpose(eVecs), Mu)`
with the all-ones dipole matrix `Mu = np.ones((Nosc,1))`, each eigenstate `n`
contributing the weight `eMu[n]**2/Nosc`.  The eigensolver output
`eVals, eVecs` of `np.linalg.eig(H)` is taken as input, since the solver is an
external library routine. -/
def eigPairs (N : ℕ) (eVals : Fin N → ℚ) (eVecs : Fin N → Fin N → ℚ) : List (ℚ × ℚ) :=
  (List.finRange N).map fun n => (eVals n, (∑ j, eVecs j n) ^ 2 / N)

/-- Full stick-spectrum construction of `Exercise9.ipynb`. -/
def stickSpec (vaxis : List ℚ) (N : ℕ) (eVals : Fin N → ℚ)
    (eVecs : Fin N → Fin N → ℚ) : Option (List ℚ) :=
  addSticks vaxis (eigPairs N eVals eVecs) (specInit vaxis)

/-- Helper: the scan returns an index below `i +` the length of the remaining
axis whenever the carried best index already does. -/
lemma argminFrom_lt (v : ℚ) (xs : List ℚ) :
    ∀ (best : ℚ) (bestIdx i : ℕ), bestIdx < i →
      argminFrom v best bestIdx i xs < i + xs.length := by
  induction xs with
  | nil =>
    intro best bestIdx i h
    simpa [argminFrom] using h
  | cons x xs ih =>
    intro best bestIdx i h
    rw [argminFrom]
    split_ifs with hlt
    · have key := ih (|x - v|) i (i + 1) (Nat.lt_succ_self i)
      simp only [List.length_cons]
      omega
    · have key := ih best bestIdx (i + 1) (by omega)
      simp only [List.length_cons]
      omega

/-- Helper: on a nonempty axis the nearest-bin lookup returns an in-range index. -/
lemma nearestNdx_total (vaxis : List ℚ) (v : ℚ) (h : vaxis ≠ []) :
    ∃ i, nearestNdx vaxis v = some i ∧ i < vaxis.length := by
  match vaxis with
  | [] => exact absurd rfl h
  | x :: xs =>
    refine ⟨argminFrom v (|x - v|) 0 1 xs, rfl, ?_⟩
    have key := argminFrom_lt v xs (|x - v|) 0 1 (by omega)
    simp only [List.length_cons]
    omega

/-- Helper: the scan keeps the carried index when no later element is strictly
closer to `v`. -/
lemma argminFrom_of_not_lt (v best : ℚ) (bestIdx : ℕ) (xs : List ℚ) :
    ∀ i : ℕ, (∀ x ∈ xs, ¬ |x - v| < best) →
      argminFrom v best bestIdx i xs = bestIdx := by
  induction xs with
  | nil =>
    intro i _
    rfl
  | cons x xs ih =>
    intro i h
    rw [argminFrom, if_neg (h x (List.mem_cons_self x xs))]
    exact ih (i + 1) fun y hy => h y (List.mem_cons_of_mem x hy)

/-- C2 counterexample: the eigenvalue `15000` lies outside the configured
window `[16000, 18000)`, yet the nearest-bin lookup of the stick-spectrum loop
does not fail: it returns the edge bin `0`, and the accumulation step succeeds,
assigning the weight there. -/
theorem nearestNdx_oob_counterexample :
    ((15000 : ℚ) < 16000) ∧
      nearestNdx (arange 16000 18000 1) 15000 = some 0 ∧
      stickStep (arange 16000 18000 1) (specInit (arange 16000 18000 1)) 15000 (1 / 10)
        ≠ none := by
  have hceil : Int.toNat ⌈((18000 : ℚ) - 16000) / 1⌉ = 2000 := by
    norm_num
    rfl
  have haxis : arange 16000 18000 1
      = (16000 + ((0 : ℕ) : ℚ) * 1)
          :: ((List.range 1999).map Nat.succ).map (fun i : ℕ => 16000 + (i : ℚ) * 1) := by
    rw [arange, hceil, (by norm_num : (2000 : ℕ) = 1999 + 1), List.range_succ_eq_map,
      List.map_cons]
  have hne : nearestNdx (arange 16000 18000 1) 15000 = some 0 := by
    rw [haxis, nearestNdx, argminFrom_of_not_lt]
    intro x hx
    simp only [List.map_map, List.mem_map, List.mem_range, Function.comp_apply] at hx
    obtain ⟨j, hj, rfl⟩ := hx
    have hj0 : (0 : ℚ) ≤ (j : ℚ) := Nat.cast_nonneg j
    have e1 : (16000 : ℚ) + (Nat.succ j : ℚ) * 1 - 15000 = 1000 + ((j : ℚ) + 1) := by
      push_cast
      ring
    have e2 : (16000 : ℚ) + ((0 : ℕ) : ℚ) * 1 - 15000 = 1000 := by
      norm_num
    rw [e1, e2, abs_of_nonneg (by linarith), abs_of_nonneg (by norm_num)]
    linarith
  refine ⟨by norm_num, hne, ?_⟩
  rw [stickStep, hne]
  simp

/-- C2 (amended): on a nonempty frequency axis the nearest-bin lookup always
succeeds with an in-range bin index, so an out-of-window eigenvalue is clipped
to an edge bin and its weight is assigned there; no index error can occur. -/
theorem stickStep_total (vaxis s : List ℚ) (v w : ℚ) (h : vaxis ≠ []) :
    ∃ i, i < vaxis.length ∧ nearestNdx vaxis v = some i ∧
      stickStep vaxis s v w = some (s.set i (s.getD i 0 + w)) := by
  obtain ⟨i, hsome, hlt⟩ := nearestNdx_total vaxis v h
  refine ⟨i, hlt, hsome, ?_⟩
  rw [stickStep, hsome, Option.map_some']

/-- C2 witness: the amended totality applied to the concrete axis `[0, 1]`,
value `5`, weight `1`: the lookup clips to the edge bin `1`. -/
theorem stickStep_total_witness :
    nearestNdx [(0 : ℚ), 1] 5 = some 1 ∧
      stickStep [(0 : ℚ), 1] [0, 0] 5 1 = some [0, 1] := by
  obtain ⟨i, hlt, hsome, hstep⟩ := stickStep_total [(0 : ℚ), 1] [0, 0] 5 1 (by simp)
  have hi : i = 1 := by
    have hcalc : nearestNdx [(0 : ℚ), 1] 5 = some 1 := by
      rw [nearestNdx, argminFrom]
      rw [if_pos (by rw [abs_of_nonpos (by norm_num), abs_of_nonpos (by norm_num)]; norm_num)]
      rfl
    rw [hcalc] at hsome
    exact (Option.some_inj.mp hsome).symm
  subst hi
  refine ⟨hsome, ?_⟩
  rw [hstep]
  norm_num [List.set, List.getD]

/-- Helper: `spec[i] += w` raises the list sum by exactly `w` for in-range `i`. -/
lemma sum_set_add (s : List ℚ) :
    ∀ i : ℕ, i < s.length → ∀ w : ℚ, (s.set i (s.getD i 0 + w)).sum = s.sum + w := by
  induction s with
  | nil =>
    intro i hi
    simp at hi
  | cons x xs ih =>
    intro i hi w
    cases i with
    | zero =>
      simp [List.getD]
      ring1
    | succ n =>
      have hn : n < xs.length := by simpa using hi
      simp only [List.set, List.getD_cons_succ, List.sum_cons]
      rw [ih n hn w]
      ring1

/-- Helper: on a nonempty axis the accumulation loop adds exactly the total of
the pushed weights to the running spectrum sum. -/
lemma addSticks_sum (vaxis : List ℚ) (hax : vaxis ≠ []) :
    ∀ (pairs : List (ℚ × ℚ)) (s : List ℚ), s.length = vaxis.length →
      ∀ s2, addSticks vaxis pairs s = some s2 →
        s2.sum = s.sum + (pairs.map Prod.snd).sum := by
  intro pairs
  induction pairs with
  | nil =>
    intro s hlen s2 heq
    rw [addSticks] at heq
    cases heq
    simp
  | cons p rest ih =>
    intro s hlen s2 heq
    obtain ⟨i, hsome, hlt⟩ := nearestNdx_total vaxis p.1 hax
    rw [addSticks, stickStep, hsome, Option.map_some', Option.some_bind] at heq
    have hstep := ih (s.set i (s.getD i 0 + p.2)) (by simpa using hlen) s2 heq
    rw [hstep, sum_set_add s i (by omega) p.2]
    simp only [List.map_cons, List.sum_cons]
    ring1

/-- C7: conservation of the stick spectrum under the code's clip-to-nearest-bin
assignment: whenever the construction succeeds (any nonempty window), the sum
of all bins equals the sum over all `N` eigenstates of their squared effective
dipoles `(Σ_j eVecs[j,n])²/N` — no weight is lost to bin collisions or
out-of-window eigenvalues. -/
theorem stickSpec_conserves (N : ℕ) (eVals : Fin N → ℚ) (eVecs : Fin N → Fin N → ℚ)
    (vaxis : List ℚ) (hax : vaxis ≠ []) (s : List ℚ)
    (heq : stickSpec vaxis N eVals eVecs = some s) :
    s.sum = ∑ n : Fin N, (∑ j, eVecs j n) ^ 2 / N := by
  have h := addSticks_sum vaxis hax (eigPairs N eVals eVecs) (specInit vaxis)
    (by simp [specInit]) s heq
  rw [h]
  have hinit : (specInit vaxis).sum = 0 := by
    simp [specInit]
  rw [hinit, zero_add, eigPairs, List.map_map, Fin.sum_univ_def]
  rfl

/-- C7 witness: conservation instantiated at `N = 1`, unit eigenvector data,
window `[0, 1]`: the single weight `1` lands in bin 0 and the sums agree. -/
theorem stickSpec_conserves_witness :
    stickSpec [0, 1] 1 (fun _ => 0) (fun _ _ => 1) = some [1, 0] ∧
      List.sum [(1 : ℚ), 0] = ∑ n : Fin 1, (∑ j : Fin 1, (1 : ℚ)) ^ 2 / (1 : ℕ) := by
  have heq : stickSpec [0, 1] 1 (fun _ => 0) (fun _ _ => 1) = some [1, 0] := by
    norm_num [stickSpec, addSticks, stickStep, nearestNdx, argminFrom, specInit, eigPairs,
      List.finRange, List.getD]
  refine ⟨heq, ?_⟩
  exact stickSpec_conserves 1 (fun _ => 0) (fun _ _ => 1) [0, 1] (by simp) [1, 0] heq

/-- Helper: the accumulation loop preserves elementwise nonnegativity of the
spectrum when every pushed weight is nonnegative. -/
lemma addSticks_nonneg (vaxis : List ℚ) :
    ∀ (pairs : List (ℚ × ℚ)) (s : List ℚ), (∀ x ∈ s, 0 ≤ x) → (∀ p ∈ pairs, 0 ≤ p.2) →
      ∀ s2, addSticks vaxis pairs s = some s2 → ∀ x ∈ s2, 0 ≤ x := by
  intro pairs
  induction pairs with
  | nil =>
    intro s hs _ s2 heq
    rw [addSticks] at heq
    cases heq
    exact hs
  | cons p rest ih =>
    intro s hs hw s2 heq
    rw [addSticks] at heq
    rcases hndx : nearestNdx vaxis p.1 with _ | i
    · rw [stickStep, hndx] at heq
      simp at heq
    · rw [stickStep, hndx, Option.map_some', Option.some_bind] at heq
      refine ih (s.set i (s.getD i 0 + p.2)) ?_
        (fun q hq => hw q (List.mem_cons_of_mem p hq)) s2 heq
      intro x hx
      rcases List.mem_or_eq_of_mem_set hx with h | h
      · exact hs x h
      · have h1 : 0 ≤ s.getD i 0 := by
          rcases Nat.lt_or_ge i s.length with hlt | hge
          · rw [List.getD_eq_getElem s 0 hlt]
            exact hs _ (List.getElem_mem hlt)
          · rw [List.getD_eq_default s 0 hge]
        have h2 : 0 ≤ p.2 := hw p (List.mem_cons_self p rest)
        rw [h]
        linarith

/-- C10: every bin of the stick spectrum is nonnegative at every stage of the
construction: after any number `k` of accumulation steps from the all-zero
initial spectrum (and in particular for the finished spectrum, `k ≥ N`), every
entry is `≥ 0`, for every eigensolver output and every window. -/
theorem stickSpec_nonneg (N : ℕ) (eVals : Fin N → ℚ) (eVecs : Fin N → Fin N → ℚ)
    (vaxis : List ℚ) (k : ℕ) (s : List ℚ)
    (heq : addSticks vaxis ((eigPairs N eVals eVecs).take k) (specInit vaxis) = some s) :
    ∀ x ∈ s, 0 ≤ x := by
  refine addSticks_nonneg vaxis ((eigPairs N eVals eVecs).take k) (specInit vaxis) ?_ ?_ s heq
  · intro x hx
    rcases List.mem_map.mp hx with ⟨y, _, rfl⟩
    exact le_refl 0
  · intro p hp
    rcases List.mem_map.mp (List.mem_of_mem_take hp) with ⟨n, _, rfl⟩
    have hsq : (0 : ℚ) ≤ (∑ j, eVecs j n) ^ 2 := sq_nonneg _
    have hN : (0 : ℚ) ≤ (N : ℚ) := Nat.cast_nonneg N
    positivity

/-- C10 witness: nonnegativity after `k = 1` accumulation steps of the `N = 1`
unit-eigenvector instance on the window `[0, 1]`. -/
theorem stickSpec_nonneg_witness :
    addSticks [0, 1] ((eigPairs 1 (fun _ => 0) (fun _ _ => 1)).take 1) (specInit [0, 1])
        = some [1, 0] ∧ (0 : ℚ) ≤ 1 := by
  have heq : addSticks [0, 1] ((eigPairs 1 (fun _ => 0) (fun _ _ => 1)).take 1)
      (specInit [0, 1]) = some [1, 0] := by
    norm_num [addSticks, stickStep, nearestNdx, argminFrom, specInit, eigPairs,
      List.finRange, List.getD]
  exact ⟨heq, stickSpec_nonneg 1 (fun _ => 0) (fun _ _ => 1) [0, 1] 1 [1, 0] heq 1 (by norm_num)⟩
